import Mathlib

/-!
# A shallow embedding of the `nireo/sgsql` lexer and parser front end

This file models, in Lean, the Go source in `src/parser/parser.go` and the
duplicate lexer draft in `src/unnamed/part_000`, and proves properties of the
model that settle the specification claims.

Conventions of the embedding:
* Go strings are modelled as `List Char` (one `Char` per byte; the source and
  its spec restrict character classification to ASCII).
* Go's `uint` counters are `Nat`.
* A Go function returning `(*tok, cursor, bool)` is modelled as returning
  `Option LexRes`: the outer `none` marks a run-time panic of the Go code
  (an out-of-range index or slice), `some` carries the Go triple.
* Loops in the Go source are modelled as recursive helper functions over the
  remaining input suffix; the byte offset is threaded alongside so that the
  suffix passed always equals `src.drop ptr` at the call sites.
-/

namespace Sgsql

/-- Model of `loc` from parser.go: zero-based line and column counters. -/
structure Loc where
  line : Nat
  column : Nat
deriving DecidableEq, Repr

/-- Model of `cursor` from parser.go: byte offset plus location. -/
structure Cursor where
  ptr : Nat
  loc : Loc
deriving DecidableEq, Repr

/-- Model of the `tokenType` constants from parser.go. -/
inductive TokenType where
  | keywordType
  | symbolType
  | identifierType
  | stringType
  | numericType
deriving DecidableEq, Repr

/-- Model of `tok` from parser.go. -/
structure Tok where
  value : List Char
  tt : TokenType
  loc : Loc
deriving DecidableEq, Repr

/-- Model of `tok.eq` from parser.go: equality of value and type, ignoring location. -/
def Tok.eq (t rhs : Tok) : Bool :=
  t.value = rhs.value && t.tt = rhs.tt

/-- The Go triple `(*tok, cursor, bool)` returned by every lexer function. -/
structure LexRes where
  tok : Option Tok
  cur : Cursor
  ok : Bool
deriving DecidableEq, Repr

/-- Convert a literal to the `List Char` representation of Go strings. -/
def gostr (s : String) : List Char := s.data

/-! ## lexNum (parser.go lines 91-162) -/

/--
The scanning loop of `lexNum`.  `icptr` is the starting offset `ic.ptr`,
`rest` is `src.drop ptr`, `loc` the location accumulator, `pf`/`ef` the
`periodFound`/`expMarkerFound` flags.  `none` models the `return nil, ic,
false` exits inside the loop; `some (ptr, loc)` models falling out of the
loop (guard failure keeps `loc` as is; `break` happens after the per-byte
`cur.loc.column++` of that iteration).
-/
def lexNumLoop (icptr : Nat) : List Char → Nat → Loc → Bool → Bool →
    Option (Nat × Loc)
  | [], ptr, loc, _, _ => some (ptr, loc)
  | c :: rest, ptr, loc, pf, ef =>
    let loc' : Loc := ⟨loc.line, loc.column + 1⟩
    let isDigit : Bool := '0' ≤ c && c ≤ '9'
    let isPeriod : Bool := c = '.'
    let isExpMarker : Bool := c = 'e'
    if ptr = icptr then
      if !isDigit && !isPeriod then none
      else lexNumLoop icptr rest (ptr + 1) loc' isPeriod ef
    else if isPeriod then
      if pf then none
      else lexNumLoop icptr rest (ptr + 1) loc' true ef
    else if isExpMarker then
      if ef then none
      else
        match rest with
        | [] => none
        | cNext :: rest2 =>
          if cNext = '-' || cNext = '+' then
            lexNumLoop icptr rest2 (ptr + 2) ⟨loc'.line, loc'.column + 1⟩ true true
          else
            lexNumLoop icptr (cNext :: rest2) (ptr + 1) loc' true true
    else if !isDigit then some (ptr, loc')
    else lexNumLoop icptr rest (ptr + 1) loc' pf ef

/-- Model of `lexNum` from parser.go. -/
def lexNum (src : List Char) (ic : Cursor) : Option LexRes :=
  match lexNumLoop ic.ptr (src.drop ic.ptr) ic.ptr ic.loc false false with
  | none => some ⟨none, ic, false⟩
  | some (p, l) =>
    if p = ic.ptr then some ⟨none, ic, false⟩
    else some ⟨some ⟨(src.drop ic.ptr).take (p - ic.ptr), TokenType.numericType, ic.loc⟩,
               ⟨p, l⟩, true⟩

/-! ## lexCharacterDelimited (parser.go lines 164-202) -/

/--
The scanning loop of `lexCharacterDelimited`, entered just past the opening
delimiter.  `rest` is `src.drop ptr`; on finding a terminating delimiter it
returns the accumulated value together with the cursor data at the
terminator (the terminator itself is not consumed, exactly as in the Go
code, whose `return` fires before the loop's increments).  An escaped pair
appends the delimiter twice, mirroring the fall-through `value = append(value, c)`
after the escape branch in the source.  `none` models running off the end of
the input. -/
def scanDelim (d : Char) : List Char → List Char → Nat → Loc →
    Option (List Char × Nat × Loc)
  | [], _, _, _ => none
  | c :: rest, value, ptr, loc =>
    if c = d then
      match rest with
      | [] => some (value, ptr, loc)
      | c2 :: rest2 =>
        if c2 = d then
          scanDelim d rest2 (value ++ [d, c]) (ptr + 2) ⟨loc.line, loc.column + 2⟩
        else some (value, ptr, loc)
    else scanDelim d rest (value ++ [c]) (ptr + 1) ⟨loc.line, loc.column + 1⟩

/-- Model of `lexCharacterDelimited` from parser.go.  The outer `none` models the
panic of the Go slice expression `src[cur.ptr:]` when `cur.ptr` exceeds the
length of `src`. -/
def lexCharacterDelimited (src : List Char) (ic : Cursor) (d : Char) :
    Option LexRes :=
  if ic.ptr > src.length then none
  else if src.length = ic.ptr then some ⟨none, ic, false⟩
  else
    match src[ic.ptr]? with
    | none => none
    | some c0 =>
      if c0 ≠ d then some ⟨none, ic, false⟩
      else
        match scanDelim d (src.drop (ic.ptr + 1)) [] (ic.ptr + 1)
            ⟨ic.loc.line, ic.loc.column + 1⟩ with
        | none => some ⟨none, ic, false⟩
        | some (value, p, l) =>
          some ⟨some ⟨value, TokenType.stringType, ic.loc⟩, ⟨p, l⟩, true⟩

/-- Model of `lexString` from parser.go. -/
def lexString (src : List Char) (ic : Cursor) : Option LexRes :=
  lexCharacterDelimited src ic '\''

/-! ## longestMatch (parser.go lines 292-333) -/

/-- Model of `strings.ToLower` applied to a one-character string, restricted to the
ASCII range the source's character classification works over. -/
def goToLower (c : Char) : Char :=
  if 'A' ≤ c && c ≤ 'Z' then Char.ofNat (c.toNat + 32) else c

/--
The inner `for i, option := range options` loop of `longestMatch`, processing
the suffix `os` of the full option list, with `i` the absolute index of its
head.  `value` is the lower-cased candidate after `k` consumed bytes, `skip`
the skip list and `m` the current best match.  `none` models the panic of the
Go slice expression `option[:cur.ptr-ic.ptr]` when the candidate is longer
than the option. -/
def lmInner (value : List Char) (k : Nat) :
    List (List Char) → Nat → List Nat → List Char →
    Option (List Nat × List Char)
  | [], _, skip, m => some (skip, m)
  | o :: os, i, skip, m =>
    if i ∈ skip then lmInner value k os (i + 1) skip m
    else if o = value then
      lmInner value k os (i + 1) (skip ++ [i]) (if m.length < o.length then o else m)
    else if o.length < k then none
    else
      let sharesPref : Bool := o.take k = value
      let tooLong : Bool := o.length < value.length
      if tooLong || !sharesPref then lmInner value k os (i + 1) (skip ++ [i]) m
      else lmInner value k os (i + 1) skip m

/--
The outer scanning loop of `longestMatch`: extend the candidate by one
lower-cased byte, run the option pass, stop early once the skip list covers
every option. -/
def lmLoop (options : List (List Char)) :
    List Char → List Char → Nat → List Nat → List Char → Option (List Char)
  | [], _, _, _, m => some m
  | c :: rest, value, k, skip, m =>
    let value' := value ++ [goToLower c]
    match lmInner value' (k + 1) options 0 skip m with
    | none => none
    | some (skip', m') =>
      if skip'.length = options.length then some m'
      else lmLoop options rest value' (k + 1) skip' m'

/-- Model of `longestMatch` from parser.go.  The outer `none` models a Go panic
inside the option pass. -/
def longestMatch (src : List Char) (ic : Cursor) (options : List (List Char)) :
    Option (List Char) :=
  lmLoop options (src.drop ic.ptr) [] 0 [] []

/-! ## lexSymbol and lexKeyword (parser.go lines 208-290) -/

/-- The symbol vocabulary of `lexSymbol`, in source order. -/
def symbolOptions : List (List Char) :=
  [gostr ",", gostr "(", gostr ")", gostr ";", gostr "*"]

/-- Model of `lexSymbol` from parser.go.  The leading `src[ic.ptr]` panics when the
cursor is at or past the end of the input, modelled by the outer `none`. -/
def lexSymbol (src : List Char) (ic : Cursor) : Option LexRes :=
  match src[ic.ptr]? with
  | none => none
  | some c =>
    if c = '\n' then
      some ⟨none, ⟨ic.ptr + 1, ⟨ic.loc.line + 1, 0⟩⟩, true⟩
    else if c = '\t' || c = ' ' then
      some ⟨none, ⟨ic.ptr + 1, ⟨ic.loc.line, ic.loc.column + 1⟩⟩, true⟩
    else
      match longestMatch src ic symbolOptions with
      | none => none
      | some m =>
        if m = [] then some ⟨none, ic, false⟩
        else
          some ⟨some ⟨m, TokenType.symbolType, ic.loc⟩,
                ⟨ic.ptr + m.length, ⟨ic.loc.line, ic.loc.column + m.length⟩⟩, true⟩

/-- The keyword vocabulary of `lexKeyword`, in source order (note: the
constant `intKeyword` exists in the source but is absent from this list). -/
def keywordOptions : List (List Char) :=
  [gostr "select", gostr "insert", gostr "values", gostr "table",
   gostr "create", gostr "where", gostr "from", gostr "into", gostr "text"]

/-- Model of `lexKeyword` from parser.go. -/
def lexKeyword (src : List Char) (ic : Cursor) : Option LexRes :=
  match longestMatch src ic keywordOptions with
  | none => none
  | some m =>
    if m = [] then some ⟨none, ic, false⟩
    else
      some ⟨some ⟨m, TokenType.keywordType, ic.loc⟩,
            ⟨ic.ptr + m.length, ⟨ic.loc.line, ic.loc.column + m.length⟩⟩, true⟩

/-! ## lexIdentifier (parser.go lines 335-376) -/

/-- One byte of the bare-identifier class: ASCII letter, digit, `$` or `_`. -/
def isIdentByte (c : Char) : Bool :=
  ('A' ≤ c && c ≤ 'Z') || ('a' ≤ c && c ≤ 'z') || ('0' ≤ c && c ≤ '9') ||
    c = '$' || c = '_'

/-- The greedy consumption loop of the bare-identifier branch of
`lexIdentifier`: consume identifier bytes, stop (without the column bump) at
the first byte outside the class. -/
def identLoop : List Char → List Char → Nat → Loc → List Char × Nat × Loc
  | [], value, ptr, loc => (value, ptr, loc)
  | c :: rest, value, ptr, loc =>
    if isIdentByte c then
      identLoop rest (value ++ [c]) (ptr + 1) ⟨loc.line, loc.column + 1⟩
    else (value, ptr, loc)

/-- Model of `lexIdentifier` from parser.go: first the double-quote delimited form
(whose result is returned unchanged, String token kind included), then the
bare form, whose value is lower-cased.  `src[cur.ptr]` panics (outer `none`)
when the delimited scan failed with the cursor at or past the end. -/
def lexIdentifier (src : List Char) (ic : Cursor) : Option LexRes :=
  match lexCharacterDelimited src ic '"' with
  | none => none
  | some r =>
    if r.ok then some r
    else
      match src[ic.ptr]? with
      | none => none
      | some c =>
        if !(('A' ≤ c && c ≤ 'Z') || ('a' ≤ c && c ≤ 'z')) then
          some ⟨none, ic, false⟩
        else
          match identLoop (src.drop (ic.ptr + 1)) [c] (ic.ptr + 1)
              ⟨ic.loc.line, ic.loc.column + 1⟩ with
          | (value, p, l) =>
            if value.length = 0 then some ⟨none, ic, false⟩
            else
              some ⟨some ⟨value.map goToLower, TokenType.identifierType, ic.loc⟩,
                    ⟨p, l⟩, true⟩

/-! ## tokenize (parser.go lines 61-89) -/

/-- The data carried by the `fmt.Errorf` in `tokenize`: the value of the
last already-produced token, if any (the "after ..." hint) and the stuck
location. -/
structure LexErr where
  hint : Option (List Char)
  loc : Loc
deriving DecidableEq, Repr

/--
The driver loop of `tokenize`.  The Go loop tries the lexers in the list
`[lexNum, lexString]` (and only those two) at each position, consumes the
first success, and errors out if both fail.  Fuel makes the recursion
structural; the outer `none` covers fuel exhaustion or a lexer panic, both
of which are unreachable from `tokenize` itself. -/
def tokenizeLoop (src : List Char) : Nat → Cursor → List Tok →
    Option (Except LexErr (List Tok))
  | 0, _, _ => none
  | fuel + 1, cur, tokens =>
    if cur.ptr < src.length then
      match lexNum src cur with
      | none => none
      | some r =>
        if r.ok then tokenizeLoop src fuel r.cur (tokens ++ r.tok.toList)
        else
          match lexString src cur with
          | none => none
          | some r2 =>
            if r2.ok then tokenizeLoop src fuel r2.cur (tokens ++ r2.tok.toList)
            else some (Except.error ⟨(tokens.getLast?).map Tok.value, cur.loc⟩)
    else some (Except.ok tokens)

/-- Model of `tokenize` from parser.go.  A successful scan step always advances the
byte offset, so `src.length + 1` units of fuel suffice. -/
def tokenize (src : List Char) : Option (Except LexErr (List Tok)) :=
  tokenizeLoop src (src.length + 1) ⟨0, ⟨0, 0⟩⟩ []

/-! ## The duplicate lexer draft (src/unnamed/part_000, lines 56-201)

The draft file declares its own `tokenize`, `lexNum`, `lexCharacterDelimited`
and `lexString`; they are embedded here a second time, suffixed `2`, as a
separate translation of that file. -/

/-- The scanning loop of the draft's `lexNum` (part_000 lines 92-145). -/
def lexNumLoop2 (icptr : Nat) : List Char → Nat → Loc → Bool → Bool →
    Option (Nat × Loc)
  | [], ptr, loc, _, _ => some (ptr, loc)
  | c :: rest, ptr, loc, pf, ef =>
    let loc' : Loc := ⟨loc.line, loc.column + 1⟩
    let isDigit : Bool := '0' ≤ c && c ≤ '9'
    let isPeriod : Bool := c = '.'
    let isExpMarker : Bool := c = 'e'
    if ptr = icptr then
      if !isDigit && !isPeriod then none
      else lexNumLoop2 icptr rest (ptr + 1) loc' isPeriod ef
    else if isPeriod then
      if pf then none
      else lexNumLoop2 icptr rest (ptr + 1) loc' true ef
    else if isExpMarker then
      if ef then none
      else
        match rest with
        | [] => none
        | cNext :: rest2 =>
          if cNext = '-' || cNext = '+' then
            lexNumLoop2 icptr rest2 (ptr + 2) ⟨loc'.line, loc'.column + 1⟩ true true
          else
            lexNumLoop2 icptr (cNext :: rest2) (ptr + 1) loc' true true
    else if !isDigit then some (ptr, loc')
    else lexNumLoop2 icptr rest (ptr + 1) loc' pf ef

/-- The draft's `lexNum` (part_000 lines 86-157). -/
def lexNum2 (src : List Char) (ic : Cursor) : Option LexRes :=
  match lexNumLoop2 ic.ptr (src.drop ic.ptr) ic.ptr ic.loc false false with
  | none => some ⟨none, ic, false⟩
  | some (p, l) =>
    if p = ic.ptr then some ⟨none, ic, false⟩
    else some ⟨some ⟨(src.drop ic.ptr).take (p - ic.ptr), TokenType.numericType, ic.loc⟩,
               ⟨p, l⟩, true⟩

/-- The scanning loop of the draft's `lexCharacterDelimited` (part_000
lines 175-194). -/
def scanDelim2 (d : Char) : List Char → List Char → Nat → Loc →
    Option (List Char × Nat × Loc)
  | [], _, _, _ => none
  | c :: rest, value, ptr, loc =>
    if c = d then
      match rest with
      | [] => some (value, ptr, loc)
      | c2 :: rest2 =>
        if c2 = d then
          scanDelim2 d rest2 (value ++ [d, c]) (ptr + 2) ⟨loc.line, loc.column + 2⟩
        else some (value, ptr, loc)
    else scanDelim2 d rest (value ++ [c]) (ptr + 1) ⟨loc.line, loc.column + 1⟩

/-- The draft's `lexCharacterDelimited` (part_000 lines 159-197). -/
def lexCharacterDelimited2 (src : List Char) (ic : Cursor) (d : Char) :
    Option LexRes :=
  if ic.ptr > src.length then none
  else if src.length = ic.ptr then some ⟨none, ic, false⟩
  else
    match src[ic.ptr]? with
    | none => none
    | some c0 =>
      if c0 ≠ d then some ⟨none, ic, false⟩
      else
        match scanDelim2 d (src.drop (ic.ptr + 1)) [] (ic.ptr + 1)
            ⟨ic.loc.line, ic.loc.column + 1⟩ with
        | none => some ⟨none, ic, false⟩
        | some (value, p, l) =>
          some ⟨some ⟨value, TokenType.stringType, ic.loc⟩, ⟨p, l⟩, true⟩

/-- The draft's `lexString` (part_000 lines 199-201). -/
def lexString2 (src : List Char) (ic : Cursor) : Option LexRes :=
  lexCharacterDelimited2 src ic '\''

/-- The driver loop of the draft's `tokenize` (part_000 lines 60-81). -/
def tokenizeLoop2 (src : List Char) : Nat → Cursor → List Tok →
    Option (Except LexErr (List Tok))
  | 0, _, _ => none
  | fuel + 1, cur, tokens =>
    if cur.ptr < src.length then
      match lexNum2 src cur with
      | none => none
      | some r =>
        if r.ok then tokenizeLoop2 src fuel r.cur (tokens ++ r.tok.toList)
        else
          match lexString2 src cur with
          | none => none
          | some r2 =>
            if r2.ok then tokenizeLoop2 src fuel r2.cur (tokens ++ r2.tok.toList)
            else some (Except.error ⟨(tokens.getLast?).map Tok.value, cur.loc⟩)
    else some (Except.ok tokens)

/-- The draft's `tokenize` (part_000 lines 56-84). -/
def tokenize2 (src : List Char) : Option (Except LexErr (List Tok)) :=
  tokenizeLoop2 src (src.length + 1) ⟨0, ⟨0, 0⟩⟩ []

/-! ## The statement parser scaffolding and the Parse loop
(parser.go lines 378-492) -/

/-- Model of `ASTType` from parser.go. -/
inductive ASTType where
  | SelectType
  | CreateTableType
  | InsertType
deriving DecidableEq, Repr

/-- Model of `expression` from parser.go (only the literal variant exists). -/
structure Expression where
  lit : Option Tok
deriving DecidableEq, Repr

/-- Model of `columnDefinition` from parser.go. -/
structure ColumnDefinition where
  name : Tok
  datatype : Tok
deriving DecidableEq, Repr

/-- Model of `CreateTableStatement` from parser.go. -/
structure CreateTableStatement where
  name : Tok
  cols : List ColumnDefinition
deriving DecidableEq, Repr

/-- Model of `SelectStatement` from parser.go. -/
structure SelectStatement where
  item : List Expression
  fromTable : Tok
deriving DecidableEq, Repr

/-- Model of `InsertStatement` from parser.go. -/
structure InsertStatement where
  table : Tok
  values : List Expression
deriving DecidableEq, Repr

/-- Model of `Statement` from parser.go: three optional variant pointers plus a tag. -/
structure Statement where
  selectStatement : Option SelectStatement
  createTableStatement : Option CreateTableStatement
  insertStatement : Option InsertStatement
  tt : ASTType
deriving DecidableEq, Repr

/-- Model of `AST` from parser.go. -/
structure AST where
  statements : List Statement
deriving DecidableEq, Repr

/-- Model of `tokenFromPunct` from parser.go, applied to `semicolonPunct`: the
canonical semicolon template token with a zero location. -/
def semicolonTok : Tok := ⟨gostr ";", TokenType.symbolType, ⟨0, 0⟩⟩

/-- Model of `expectToken` from parser.go. -/
def expectToken (tokens : List Tok) (cursor : Nat) (t : Tok) : Bool :=
  match tokens[cursor]? with
  | none => false
  | some tk => t.eq tk

/-- The iteration worker of the semicolon-consuming loop in `Parse`,
walking the token suffix `rest = tokens.drop cursor`. -/
def skipSemisAux : List Tok → Nat → Nat
  | [], cursor => cursor
  | tk :: rest, cursor =>
    if semicolonTok.eq tk then skipSemisAux rest (cursor + 1) else cursor

/-- The semicolon-consuming loop in `Parse`: starting from `cursor`, advance
past every consecutive token equal (by value and kind) to the semicolon
template and return the first index that is not. -/
def skipSemicolons (tokens : List Tok) (cursor : Nat) : Nat :=
  skipSemisAux (tokens.drop cursor) cursor

/-- The error values `Parse` can return from its own loop (the Go
`errors.New` messages). -/
inductive ParseErr where
  | expectedStatement
  | missingSemicolon
deriving DecidableEq, Repr

/--
The statement loop of `Parse` (parser.go lines 469-489), parameterized by
the statement parser `ps` it calls (the Go `parseStatement`, which is not
part of the visible source): while the cursor is inside the token sequence,
parse one statement, append it, then consume at least one semicolon (erroring
otherwise).  Fuel makes the loop structural; `none` models non-termination,
which the Go loop exhibits only if `ps` fails to make progress. -/
def parseLoop (ps : List Tok → Nat → Option (Statement × Nat)) :
    Nat → List Tok → Nat → List Statement →
    Option (Except ParseErr (List Statement))
  | 0, _, _, _ => none
  | fuel + 1, tokens, cursor, acc =>
    if cursor < tokens.length then
      match ps tokens cursor with
      | none => some (Except.error ParseErr.expectedStatement)
      | some (stmt, newCursor) =>
        let acc' := acc ++ [stmt]
        let cursor2 := skipSemicolons tokens newCursor
        if cursor2 = newCursor then some (Except.error ParseErr.missingSemicolon)
        else parseLoop ps fuel tokens cursor2 acc'
    else some (Except.ok acc)

/-- The error type of `Parse`: either the tokenizer's error or a parse
error of its own loop. -/
inductive ParseError where
  | lex (e : LexErr)
  | parse (e : ParseErr)
deriving DecidableEq, Repr

/-- Model of `Parse` from parser.go, parameterized by the missing `parseStatement`:
tokenize, then run the statement loop from cursor zero. -/
def Parse (ps : List Tok → Nat → Option (Statement × Nat)) (src : List Char) :
    Option (Except ParseError AST) :=
  match tokenize src with
  | none => none
  | some (Except.error e) => some (Except.error (ParseError.lex e))
  | some (Except.ok tokens) =>
    match parseLoop ps (tokens.length + 1) tokens 0 [] with
    | none => none
    | some (Except.error e) => some (Except.error (ParseError.parse e))
    | some (Except.ok stmts) => some (Except.ok ⟨stmts⟩)

/-! ## Derived definitions used by the statements of the claims -/

/-- The lower-cased candidate string after `j` consumed bytes. -/
def cand (rest0 : List Char) (j : Nat) : List Char :=
  (rest0.take j).map goToLower

/-- Predicate: `o` equals no candidate with index strictly above `k` (up to the input
length). -/
def NoCand (rest0 o : List Char) (k : Nat) : Prop :=
  ∀ j, k < j → j ≤ rest0.length → o ≠ cand rest0 j

/-- Predicate: `o` equals some candidate with index between 1 and `k`. -/
def Matched (rest0 o : List Char) (k : Nat) : Prop :=
  ∃ j, 1 ≤ j ∧ j ≤ k ∧ o = cand rest0 j

/-- The cursor contract of the spec: a failed scan returns the starting
cursor unchanged, a successful scan never moves the byte offset backwards. -/
def cursorContract (f : List Char → Cursor → Option LexRes) : Prop :=
  ∀ (src : List Char) (ic : Cursor) (r : LexRes), f src ic = some r →
    (r.ok = false → r.cur = ic) ∧ (r.ok = true → ic.ptr ≤ r.cur.ptr)

/-! ## Helper lemmas about the delimited scanner -/

/-- Unfolding lemma for one iteration of the delimited scanner's loop. -/
theorem scanDelim_cons (d c : Char) (rest v : List Char) (p : Nat) (l : Loc) :
    scanDelim d (c :: rest) v p l =
      (if c = d then
        match rest with
        | [] => some (v, p, l)
        | c2 :: rest2 =>
          if c2 = d then
            scanDelim d rest2 (v ++ [d, c]) (p + 2) ⟨l.line, l.column + 2⟩
          else some (v, p, l)
      else scanDelim d rest (v ++ [c]) (p + 1) ⟨l.line, l.column + 1⟩) := by
  cases rest <;> rfl

/-- The delimited scanner's loop, on a body free of the delimiter followed
by the closing delimiter: it accumulates exactly the body and stops at the
closing delimiter, advancing offset and column by the body length. -/
theorem scanDelim_clean (d : Char) (s : List Char) (hs : ∀ c ∈ s, c ≠ d) :
    ∀ (v : List Char) (p : Nat) (l : Loc),
      scanDelim d (s ++ [d]) v p l =
        some (v ++ s, p + s.length, ⟨l.line, l.column + s.length⟩) := by
  induction s with
  | nil =>
    intro v p l
    simp [scanDelim]
  | cons c s' ih =>
    intro v p l
    have hc : c ≠ d := hs c (List.mem_cons_self c s')
    have hs' : ∀ x ∈ s', x ≠ d := fun x hx => hs x (List.mem_cons_of_mem c hx)
    rw [List.cons_append, scanDelim_cons, if_neg hc, ih hs']
    simp
    omega

/-- The delimited scanner's loop never changes the line counter. -/
theorem scanDelim_line (d : Char) : ∀ (rest v : List Char) (p : Nat) (l : Loc)
    (v' : List Char) (p' : Nat) (l' : Loc),
    scanDelim d rest v p l = some (v', p', l') → l'.line = l.line
  | [] => by intro v p l v' p' l' h; simp [scanDelim] at h
  | c :: rest => by
    intro v p l v' p' l' h
    rw [scanDelim_cons] at h
    by_cases hc : c = d
    · rw [if_pos hc] at h
      cases rest with
      | nil => simp_all
      | cons c2 rest2 =>
        simp only [] at h
        by_cases hc2 : c2 = d
        · rw [if_pos hc2] at h
          have h2 := scanDelim_line d rest2 (v ++ [d, c]) (p + 2)
            ⟨l.line, l.column + 2⟩ v' p' l' h
          simpa using h2
        · rw [if_neg hc2] at h; simp_all
    · rw [if_neg hc] at h
      have h2 := scanDelim_line d rest (v ++ [c]) (p + 1)
        ⟨l.line, l.column + 1⟩ v' p' l' h
      simpa using h2

/-- The delimited scanner's loop never moves the offset backwards. -/
theorem scanDelim_ptr_le (d : Char) : ∀ (rest v : List Char) (p : Nat) (l : Loc)
    (v' : List Char) (p' : Nat) (l' : Loc),
    scanDelim d rest v p l = some (v', p', l') → p ≤ p'
  | [] => by intro v p l v' p' l' h; simp [scanDelim] at h
  | c :: rest => by
    intro v p l v' p' l' h
    rw [scanDelim_cons] at h
    by_cases hc : c = d
    · rw [if_pos hc] at h
      cases rest with
      | nil => simp_all
      | cons c2 rest2 =>
        simp only [] at h
        by_cases hc2 : c2 = d
        · rw [if_pos hc2] at h
          have h2 := scanDelim_ptr_le d rest2 (v ++ [d, c]) (p + 2)
            ⟨l.line, l.column + 2⟩ v' p' l' h
          omega
        · rw [if_neg hc2] at h
          simp only [Option.some.injEq, Prod.mk.injEq] at h
          omega
    · rw [if_neg hc] at h
      have h2 := scanDelim_ptr_le d rest (v ++ [c]) (p + 1)
        ⟨l.line, l.column + 1⟩ v' p' l' h
      omega

/-- From a suffix decomposition, one position of the original list. -/
theorem drop_cons_head {α : Type} (src : List α) (n : Nat) (c : α)
    (r : List α) (h : src.drop n = c :: r) :
    src[n]? = some c ∧ src.drop (n + 1) = r := by
  constructor
  · have h0 : (src.drop n)[0]? = some c := by
      rw [h, List.getElem?_cons_zero]
    rwa [List.getElem?_drop, Nat.add_zero] at h0
  · have : src.drop (n + 1) = (src.drop n).drop 1 := by
      rw [List.drop_drop, Nat.add_comm]
    rw [this, h, List.drop_one, List.tail_cons]

/-- A successful run of the delimited scanner's loop stops exactly on an
occurrence of the delimiter inside the input. -/
theorem scanDelim_stops_at_delim (src : List Char) (d : Char) :
    ∀ (rest v : List Char) (p : Nat) (l : Loc) (v' : List Char) (p' : Nat)
      (l' : Loc), src.drop p = rest → scanDelim d rest v p l = some (v', p', l') →
      src[p']? = some d ∧ p ≤ p'
  | [] => by intro v p l v' p' l' hd h; simp [scanDelim] at h
  | c :: rest => by
    intro v p l v' p' l' hd h
    obtain ⟨hget, hd1⟩ := drop_cons_head src p c rest hd
    rw [scanDelim_cons] at h
    by_cases hc : c = d
    · rw [if_pos hc] at h
      cases rest with
      | nil =>
        simp only [Option.some.injEq, Prod.mk.injEq] at h
        subst hc
        exact ⟨h.2.1 ▸ hget, by omega⟩
      | cons c2 rest2 =>
        simp only [] at h
        by_cases hc2 : c2 = d
        · rw [if_pos hc2] at h
          obtain ⟨_, hd2⟩ := drop_cons_head src (p + 1) c2 rest2 hd1
          have h2 := scanDelim_stops_at_delim src d rest2 (v ++ [d, c]) (p + 2)
            ⟨l.line, l.column + 2⟩ v' p' l' (by rw [← hd2]) h
          exact ⟨h2.1, by omega⟩
        · rw [if_neg hc2] at h
          simp only [Option.some.injEq, Prod.mk.injEq] at h
          subst hc
          exact ⟨h.2.1 ▸ hget, by omega⟩
    · rw [if_neg hc] at h
      have h2 := scanDelim_stops_at_delim src d rest (v ++ [c]) (p + 1)
        ⟨l.line, l.column + 1⟩ v' p' l' hd1 h
      exact ⟨h2.1, by omega⟩

/-! ## Claim theorems: the tokenizer driver and the literal scanners -/

/--
Claim C1 (status: code bug).  The specification says the tokenizer driver
tries the scanners in the order numeric, delimited-string, symbol, keyword,
identifier, so that `select` lexes as a Keyword token.  In the source the
driver's scanner list is only `[lexNum, lexString]`: on the input `select`
the driver returns a lexing error at line 0 column 0, even though the
(never invoked) keyword scanner succeeds on the same input with exactly the
Keyword token the spec expects. -/
theorem c1_driver_skips_keyword_scanner :
    tokenize (gostr "select") = some (Except.error ⟨none, ⟨0, 0⟩⟩) ∧
    lexKeyword (gostr "select") ⟨0, ⟨0, 0⟩⟩ =
      some ⟨some ⟨gostr "select", TokenType.keywordType, ⟨0, 0⟩⟩,
            ⟨6, ⟨0, 6⟩⟩, true⟩ :=
  ⟨rfl, rfl⟩

/--
Claim C2 (status: code bug).  The round-trip property fails twice over in
the source: (1) wrapping `x` in single quotes and lexing does not yield one
String token — the delimited scanner returns without consuming the closing
quote, the driver re-enters the string scanner on that quote, finds the
literal unterminated, and the whole tokenize call errors out; (2) inside a
literal a doubled delimiter appends the delimiter twice to the value (the
escape branch falls through to the ordinary append), so lexing `'a''b'`
produces the value `a''b`, not `a'b`. -/
theorem c2_roundtrip_fails :
    tokenize ['\'', 'x', '\''] = some (Except.error ⟨some ['x'], ⟨0, 2⟩⟩) ∧
    lexString ['\'', 'a', '\'', '\'', 'b', '\''] ⟨0, ⟨0, 0⟩⟩ =
      some ⟨some ⟨['a', '\'', '\'', 'b'], TokenType.stringType, ⟨0, 0⟩⟩,
            ⟨5, ⟨0, 5⟩⟩, true⟩ :=
  ⟨rfl, rfl⟩

/--
Claim C5, counterexample.  On `1.2.3` the claim "the returned error is a
lexing error whose reported location is the offending character's position"
is false: the offending second period sits at line 0 column 3, but the
error produced by the source reports line 0 column 0 (the position at which
no scanner matched, i.e. the start of the unlexable region). -/
theorem c5_error_not_at_offending_char :
    tokenize (gostr "1.2.3") = some (Except.error ⟨none, ⟨0, 0⟩⟩) ∧
    (⟨0, 0⟩ : Loc) ≠ ⟨0, 3⟩ :=
  ⟨rfl, by decide⟩

/--
Claim C5 as amended: on `1.2.3` the numeric scanner rejects (no truncated
`1.2` token is emitted — the scan fails as a whole at the second period)
and tokenize returns a lexing error whose location is the start of the
unlexable region, line 0 column 0. -/
theorem c5_malformed_numeric_fatal :
    lexNum (gostr "1.2.3") ⟨0, ⟨0, 0⟩⟩ = some ⟨none, ⟨0, ⟨0, 0⟩⟩, false⟩ ∧
    tokenize (gostr "1.2.3") = some (Except.error ⟨none, ⟨0, 0⟩⟩) :=
  ⟨rfl, rfl⟩

/--
Claim C3, counterexample.  On the double-quoted literal `"A"` the
identifier scanner succeeds but returns the delimited scanner's token
unchanged: its kind is String, not Identifier as the claim states. -/
theorem c3_quoted_identifier_is_string_kind :
    lexIdentifier ['"', 'A', '"'] ⟨0, ⟨0, 0⟩⟩ =
      some ⟨some ⟨['A'], TokenType.stringType, ⟨0, 0⟩⟩, ⟨2, ⟨0, 2⟩⟩, true⟩ ∧
    TokenType.stringType ≠ TokenType.identifierType :=
  ⟨rfl, by decide⟩

/--
Claim C3 as amended: for every double-quoted literal the identifier scanner
succeeds and returns the delimited scanner's result unchanged — a token of
String kind (not relabelled to Identifier) whose value preserves the quoted
characters' case exactly as written: for any body free of the double-quote
character, scanning `"body"` yields the body verbatim as the value. -/
theorem c3_quoted_identifier_verbatim :
    (∀ (src : List Char) (ic : Cursor) (r : LexRes),
      lexCharacterDelimited src ic '"' = some r → r.ok = true →
      lexIdentifier src ic = some r) ∧
    (∀ s : List Char, (∀ c ∈ s, c ≠ '"') →
      lexIdentifier ('"' :: s ++ ['"']) ⟨0, ⟨0, 0⟩⟩ =
        some ⟨some ⟨s, TokenType.stringType, ⟨0, 0⟩⟩,
              ⟨s.length + 1, ⟨0, s.length + 1⟩⟩, true⟩) := by
  constructor
  · intro src ic r h hok
    simp [lexIdentifier, h, hok]
  · intro s hs
    have hclean := scanDelim_clean '"' s hs [] 1 ⟨0, 1⟩
    have hdelim : lexCharacterDelimited ('"' :: s ++ ['"']) ⟨0, ⟨0, 0⟩⟩ '"' =
        some ⟨some ⟨s, TokenType.stringType, ⟨0, 0⟩⟩,
              ⟨s.length + 1, ⟨0, s.length + 1⟩⟩, true⟩ := by
      rw [lexCharacterDelimited]
      simp only [List.length_cons, List.length_append, List.length_singleton]
      rw [if_neg (by omega), if_neg (by omega)]
      have hget : ('"' :: (s ++ ['"']))[0]? = some '"' :=
        List.getElem?_cons_zero
      rw [List.cons_append, hget]
      simp only [ne_eq, not_true_eq_false, if_false, List.drop_succ_cons,
        List.drop_zero]
      rw [hclean]
      simp [Nat.add_comm]
    rw [lexIdentifier, hdelim]
    rfl

/--
Claim C8, counterexample.  The claim says every scan step consuming a
newline increments the line counter and resets the column to zero, whether
as whitespace or inside a delimited literal.  Inside a literal it is false:
lexing the string literal `'a\nb'` consumes a newline, yet the scanner's
final cursor still has line 0, and a column of 4 rather than a reset one —
inside the delimited scanner a newline only bumps the column. -/
theorem c8_newline_in_literal_keeps_line :
    lexString ['\'', 'a', '\n', 'b', '\''] ⟨0, ⟨0, 0⟩⟩ =
      some ⟨some ⟨['a', '\n', 'b'], TokenType.stringType, ⟨0, 0⟩⟩,
            ⟨4, ⟨0, 4⟩⟩, true⟩ ∧
    ¬((0 : Nat) = 0 + 1 ∧ (4 : Nat) = 0) :=
  ⟨rfl, by decide⟩

/--
Claim C8 as amended: a newline consumed as discarded whitespace by the
symbol scanner increments the line counter and resets the column to zero;
a newline consumed inside a delimited literal leaves the line counter
unchanged (the delimited scanner never touches the line counter at all). -/
theorem c8_newline_handling :
    (∀ (src : List Char) (ic : Cursor), src[ic.ptr]? = some '\n' →
      lexSymbol src ic =
        some ⟨none, ⟨ic.ptr + 1, ⟨ic.loc.line + 1, 0⟩⟩, true⟩) ∧
    (∀ (src : List Char) (ic : Cursor) (d : Char) (r : LexRes),
      lexCharacterDelimited src ic d = some r → r.cur.loc.line = ic.loc.line) := by
  constructor
  · intro src ic h
    rw [lexSymbol, h]
    rfl
  · intro src ic d r h
    rw [lexCharacterDelimited] at h
    split at h
    · exact Option.noConfusion h
    split at h
    · cases h; rfl
    split at h
    · exact Option.noConfusion h
    split at h
    · cases h; rfl
    split at h
    · cases h; rfl
    · rename_i value p l hs
      cases h
      have h4 := scanDelim_line d (src.drop (ic.ptr + 1)) [] (ic.ptr + 1)
        ⟨ic.loc.line, ic.loc.column + 1⟩ value p l hs
      simpa using h4

/--
Witness for claim C3: the amended theorem applied at the concrete
double-quoted literal `"A"`, whose body is free of double quotes. -/
theorem c3_quoted_identifier_verbatim_witness :
    lexIdentifier ['"', 'A', '"'] ⟨0, ⟨0, 0⟩⟩ =
      some ⟨some ⟨['A'], TokenType.stringType, ⟨0, 0⟩⟩,
            ⟨1 + 1, ⟨0, 1 + 1⟩⟩, true⟩ := by
  have h := c3_quoted_identifier_verbatim.2 ['A'] (by decide)
  simpa using h

/--
Witness for claim C8: the amended theorem's whitespace part applied at a
one-newline input starting from line 5 column 7, and its literal part
applied to the scan of the literal `'a\nb'`. -/
theorem c8_newline_handling_witness :
    lexSymbol ['\n'] ⟨0, ⟨5, 7⟩⟩ = some ⟨none, ⟨1, ⟨6, 0⟩⟩, true⟩ ∧
    (⟨0, 4⟩ : Loc).line = (⟨0, 0⟩ : Loc).line := by
  constructor
  · have h := c8_newline_handling.1 ['\n'] ⟨0, ⟨5, 7⟩⟩ rfl
    simpa using h
  · exact c8_newline_handling.2 ['\'', 'a', '\n', 'b', '\'']
      ⟨0, ⟨0, 0⟩⟩ '\''
      ⟨some ⟨['a', '\n', 'b'], TokenType.stringType, ⟨0, 0⟩⟩, ⟨4, ⟨0, 4⟩⟩, true⟩
      rfl

/-! ## Claim C10: the duplicate lexer draft agrees with the main lexer -/

/-- Unfolding lemma for one iteration of the numeric scanner's loop. -/
theorem lexNumLoop_cons (icptr : Nat) (c : Char) (rest : List Char) (ptr : Nat)
    (loc : Loc) (pf ef : Bool) :
    lexNumLoop icptr (c :: rest) ptr loc pf ef =
      (let loc' : Loc := ⟨loc.line, loc.column + 1⟩
       let isDigit : Bool := '0' ≤ c && c ≤ '9'
       let isPeriod : Bool := c = '.'
       let isExpMarker : Bool := c = 'e'
       if ptr = icptr then
         if !isDigit && !isPeriod then none
         else lexNumLoop icptr rest (ptr + 1) loc' isPeriod ef
       else if isPeriod then
         if pf then none
         else lexNumLoop icptr rest (ptr + 1) loc' true ef
       else if isExpMarker then
         if ef then none
         else
           match rest with
           | [] => none
           | cNext :: rest2 =>
             if cNext = '-' || cNext = '+' then
               lexNumLoop icptr rest2 (ptr + 2) ⟨loc'.line, loc'.column + 1⟩ true true
             else
               lexNumLoop icptr (cNext :: rest2) (ptr + 1) loc' true true
       else if !isDigit then some (ptr, loc')
       else lexNumLoop icptr rest (ptr + 1) loc' pf ef) := by
  cases rest <;> rfl

/-- Unfolding lemma for one iteration of the draft's numeric-scanner loop. -/
theorem lexNumLoop2_cons (icptr : Nat) (c : Char) (rest : List Char) (ptr : Nat)
    (loc : Loc) (pf ef : Bool) :
    lexNumLoop2 icptr (c :: rest) ptr loc pf ef =
      (let loc' : Loc := ⟨loc.line, loc.column + 1⟩
       let isDigit : Bool := '0' ≤ c && c ≤ '9'
       let isPeriod : Bool := c = '.'
       let isExpMarker : Bool := c = 'e'
       if ptr = icptr then
         if !isDigit && !isPeriod then none
         else lexNumLoop2 icptr rest (ptr + 1) loc' isPeriod ef
       else if isPeriod then
         if pf then none
         else lexNumLoop2 icptr rest (ptr + 1) loc' true ef
       else if isExpMarker then
         if ef then none
         else
           match rest with
           | [] => none
           | cNext :: rest2 =>
             if cNext = '-' || cNext = '+' then
               lexNumLoop2 icptr rest2 (ptr + 2) ⟨loc'.line, loc'.column + 1⟩ true true
             else
               lexNumLoop2 icptr (cNext :: rest2) (ptr + 1) loc' true true
       else if !isDigit then some (ptr, loc')
       else lexNumLoop2 icptr rest (ptr + 1) loc' pf ef) := by
  cases rest <;> rfl

/-- The two numeric-scanner loops agree everywhere. -/
theorem lexNumLoop2_eq : ∀ (rest : List Char) (icptr ptr : Nat) (loc : Loc)
    (pf ef : Bool),
    lexNumLoop2 icptr rest ptr loc pf ef = lexNumLoop icptr rest ptr loc pf ef
  | [] => by intro icptr ptr loc pf ef; rfl
  | c :: rest => by
    intro icptr ptr loc pf ef
    rw [lexNumLoop2_cons, lexNumLoop_cons]
    simp only []
    repeat' split
    all_goals first
      | rfl
      | exact lexNumLoop2_eq rest _ _ _ _ _
      | exact lexNumLoop2_eq _ _ _ _ _ _

/-- Unfolding lemma for one iteration of the draft's delimited-scanner loop. -/
theorem scanDelim2_cons (d c : Char) (rest v : List Char) (p : Nat) (l : Loc) :
    scanDelim2 d (c :: rest) v p l =
      (if c = d then
        match rest with
        | [] => some (v, p, l)
        | c2 :: rest2 =>
          if c2 = d then
            scanDelim2 d rest2 (v ++ [d, c]) (p + 2) ⟨l.line, l.column + 2⟩
          else some (v, p, l)
      else scanDelim2 d rest (v ++ [c]) (p + 1) ⟨l.line, l.column + 1⟩) := by
  cases rest <;> rfl

/-- The two delimited-scanner loops agree everywhere. -/
theorem scanDelim2_eq : ∀ (rest : List Char) (d : Char) (v : List Char)
    (p : Nat) (l : Loc), scanDelim2 d rest v p l = scanDelim d rest v p l
  | [] => by intro d v p l; rfl
  | c :: rest => by
    intro d v p l
    rw [scanDelim2_cons, scanDelim_cons]
    repeat' split
    all_goals first
      | rfl
      | exact scanDelim2_eq rest _ _ _ _
      | exact scanDelim2_eq _ _ _ _ _

/-- The two `lexNum` functions agree everywhere. -/
theorem lexNum2_eq (src : List Char) (ic : Cursor) :
    lexNum2 src ic = lexNum src ic := by
  rw [lexNum2, lexNum, lexNumLoop2_eq]

/-- The two `lexCharacterDelimited` functions agree everywhere. -/
theorem lexCharacterDelimited2_eq (src : List Char) (ic : Cursor) (d : Char) :
    lexCharacterDelimited2 src ic d = lexCharacterDelimited src ic d := by
  rw [lexCharacterDelimited2, lexCharacterDelimited, scanDelim2_eq]

/-- The two `lexString` functions agree everywhere. -/
theorem lexString2_eq (src : List Char) (ic : Cursor) :
    lexString2 src ic = lexString src ic := by
  rw [lexString2, lexString, lexCharacterDelimited2_eq]

/-- The two tokenizer driver loops agree everywhere. -/
theorem tokenizeLoop2_eq (src : List Char) : ∀ (fuel : Nat) (cur : Cursor)
    (tokens : List Tok),
    tokenizeLoop2 src fuel cur tokens = tokenizeLoop src fuel cur tokens := by
  intro fuel
  induction fuel with
  | zero => intro cur tokens; rfl
  | succ f ih =>
    intro cur tokens
    rw [tokenizeLoop2, tokenizeLoop, lexNum2_eq, lexString2_eq]
    repeat' split
    all_goals first | rfl | rw [ih]

/-- The two `tokenize` functions agree everywhere. -/
theorem tokenize2_eq (src : List Char) : tokenize2 src = tokenize src := by
  rw [tokenize2, tokenize, tokenizeLoop2_eq]

/--
Claim C10 (status: confirmed).  The duplicate lexer draft in
src/unnamed/part_000 is extensionally equal to the main lexer of
src/parser/parser.go: its `tokenize`, `lexNum`, `lexCharacterDelimited` and
`lexString` return the same results as the same-named functions of the main
file on every source text, cursor, and delimiter. -/
theorem c10_draft_lexer_equivalent :
    (∀ src : List Char, tokenize2 src = tokenize src) ∧
    (∀ (src : List Char) (ic : Cursor), lexNum2 src ic = lexNum src ic) ∧
    (∀ (src : List Char) (ic : Cursor) (d : Char),
      lexCharacterDelimited2 src ic d = lexCharacterDelimited src ic d) ∧
    (∀ (src : List Char) (ic : Cursor), lexString2 src ic = lexString src ic) :=
  ⟨tokenize2_eq, lexNum2_eq, lexCharacterDelimited2_eq, lexString2_eq⟩

/-! ## Claim C9: the cursor contract of the scanners -/

theorem lexNumLoop_ptr_le : ∀ (rest : List Char) (icptr ptr : Nat) (loc : Loc)
    (pf ef : Bool) (p : Nat) (l : Loc),
    lexNumLoop icptr rest ptr loc pf ef = some (p, l) → ptr ≤ p
  | [] => by
    intro icptr ptr loc pf ef p l h
    simp [lexNumLoop] at h
    omega
  | c :: rest => by
    intro icptr ptr loc pf ef p l h
    rw [lexNumLoop_cons] at h
    simp only [] at h
    repeat' split at h
    all_goals first
      | exact Option.noConfusion h
      | (simp only [Option.some.injEq, Prod.mk.injEq] at h; omega)
      | (have h2 := lexNumLoop_ptr_le rest _ _ _ _ _ _ _ h; omega)
      | (have h2 := lexNumLoop_ptr_le _ _ _ _ _ _ _ _ h; omega)

theorem identLoop_ptr_le : ∀ (rest v : List Char) (ptr : Nat) (loc : Loc),
    ptr ≤ (identLoop rest v ptr loc).2.1
  | [] => by intro v ptr loc; simp [identLoop]
  | c :: rest => by
    intro v ptr loc
    rw [identLoop]
    split
    · have h2 := identLoop_ptr_le rest (v ++ [c]) (ptr + 1) ⟨loc.line, loc.column + 1⟩
      omega
    · simp

theorem lexNum_contract : cursorContract lexNum := by
  intro src ic r h
  rw [lexNum] at h
  split at h
  · cases h; exact ⟨fun _ => rfl, fun hk => Bool.noConfusion hk⟩
  · rename_i p l hloop
    split at h
    · cases h; exact ⟨fun _ => rfl, fun hk => Bool.noConfusion hk⟩
    · cases h
      refine ⟨fun hk => Bool.noConfusion hk, fun _ => ?_⟩
      exact lexNumLoop_ptr_le _ _ _ _ _ _ _ _ hloop

theorem lexCharacterDelimited_contract (d : Char) :
    cursorContract (fun src ic => lexCharacterDelimited src ic d) := by
  intro src ic r h
  simp only [lexCharacterDelimited] at h
  split at h
  · exact Option.noConfusion h
  split at h
  · cases h; exact ⟨fun _ => rfl, fun hk => Bool.noConfusion hk⟩
  split at h
  · exact Option.noConfusion h
  split at h
  · cases h; exact ⟨fun _ => rfl, fun hk => Bool.noConfusion hk⟩
  split at h
  · cases h; exact ⟨fun _ => rfl, fun hk => Bool.noConfusion hk⟩
  · rename_i value p l hs
    cases h
    refine ⟨fun hk => Bool.noConfusion hk, fun _ => ?_⟩
    have h2 := scanDelim_ptr_le d (src.drop (ic.ptr + 1)) [] (ic.ptr + 1)
      ⟨ic.loc.line, ic.loc.column + 1⟩ value p l hs
    simp only []
    omega

theorem lexString_contract : cursorContract lexString :=
  lexCharacterDelimited_contract '\''

theorem lexSymbol_contract : cursorContract lexSymbol := by
  intro src ic r h
  simp only [lexSymbol] at h
  split at h
  · exact Option.noConfusion h
  split at h
  · cases h
    exact ⟨fun hk => Bool.noConfusion hk, fun _ => by simp⟩
  split at h
  · cases h
    exact ⟨fun hk => Bool.noConfusion hk, fun _ => by simp⟩
  split at h
  · exact Option.noConfusion h
  split at h
  · cases h; exact ⟨fun _ => rfl, fun hk => Bool.noConfusion hk⟩
  · cases h
    exact ⟨fun hk => Bool.noConfusion hk, fun _ => by simp⟩

theorem lexKeyword_contract : cursorContract lexKeyword := by
  intro src ic r h
  simp only [lexKeyword] at h
  split at h
  · exact Option.noConfusion h
  split at h
  · cases h; exact ⟨fun _ => rfl, fun hk => Bool.noConfusion hk⟩
  · cases h
    exact ⟨fun hk => Bool.noConfusion hk, fun _ => by simp⟩

theorem lexIdentifier_contract : cursorContract lexIdentifier := by
  intro src ic r h
  simp only [lexIdentifier] at h
  split at h
  · exact Option.noConfusion h
  · rename_i r0 hdelim
    split at h
    · injection h with h1
      subst h1
      rename_i hok
      exact ⟨fun hk => by rw [hok] at hk; exact Bool.noConfusion hk,
             fun _ => (lexCharacterDelimited_contract '"' src ic _ hdelim).2 hok⟩
    split at h
    · exact Option.noConfusion h
    split at h
    · cases h; exact ⟨fun _ => rfl, fun hk => Bool.noConfusion hk⟩
    split at h
    · cases h; exact ⟨fun _ => rfl, fun hk => Bool.noConfusion hk⟩
    · cases h
      refine ⟨fun hk => Bool.noConfusion hk, fun _ => ?_⟩
      exact le_trans (Nat.le_succ ic.ptr) (identLoop_ptr_le _ _ _ _)

/--
Claim C9 (status: confirmed).  For every scanner, every source text and
every starting cursor, whenever the Go function returns (i.e. does not
panic): a failed scan returns the starting cursor unchanged, and a
successful scan returns a cursor whose byte offset is at least the starting
byte offset. -/
theorem c9_scanner_cursor_contract :
    cursorContract lexNum ∧
    (∀ d : Char, cursorContract (fun src ic => lexCharacterDelimited src ic d)) ∧
    cursorContract lexString ∧
    cursorContract lexSymbol ∧
    cursorContract lexKeyword ∧
    cursorContract lexIdentifier :=
  ⟨lexNum_contract, lexCharacterDelimited_contract, lexString_contract,
   lexSymbol_contract, lexKeyword_contract, lexIdentifier_contract⟩

/--
Witness for claim C9: the numeric scanner's contract applied at the
concrete input `1`, whose successful scan moves the byte offset from 0
to 1. -/
theorem c9_scanner_cursor_contract_witness :
    (⟨0, ⟨0, 0⟩⟩ : Cursor).ptr ≤ (⟨1, ⟨0, 1⟩⟩ : Cursor).ptr :=
  (c9_scanner_cursor_contract.1 (gostr "1") ⟨0, ⟨0, 0⟩⟩
    ⟨some ⟨gostr "1", TokenType.numericType, ⟨0, 0⟩⟩, ⟨1, ⟨0, 1⟩⟩, true⟩
    rfl).2 rfl

/-! ## Claim C7: token values are never empty in a successful run -/

/-- A successful numeric scan advances the cursor and captures a non-empty
value. -/
theorem lexNum_success (src : List Char) (ic : Cursor) (r : LexRes)
    (h : lexNum src ic = some r) (hok : r.ok = true) :
    ic.ptr < r.cur.ptr ∧ ∃ t, r.tok = some t ∧ t.value ≠ [] := by
  rw [lexNum] at h
  split at h
  · cases h; exact Bool.noConfusion hok
  · rename_i p l hloop
    split at h
    · cases h; exact Bool.noConfusion hok
    · rename_i hne
      cases h
      have hle := lexNumLoop_ptr_le _ _ _ _ _ _ _ _ hloop
      have hlt : ic.ptr < p := lt_of_le_of_ne hle (fun hx => hne hx.symm)
      refine ⟨hlt, ⟨_, rfl, ?_⟩⟩
      have hdrop : src.drop ic.ptr ≠ [] := by
        intro hnil
        rw [hnil] at hloop
        simp [lexNumLoop] at hloop
        omega
      have hlen : 0 < ((src.drop ic.ptr).take (p - ic.ptr)).length := by
        rw [List.length_take]
        have h1 : 0 < (src.drop ic.ptr).length := List.length_pos.mpr hdrop
        omega
      exact List.ne_nil_of_length_pos hlen

/-- The numeric scanner rejects immediately at a single-quote byte. -/
theorem lexNum_fails_at_quote (src : List Char) (ic : Cursor)
    (h : src[ic.ptr]? = some '\'') :
    lexNum src ic = some ⟨none, ic, false⟩ := by
  have hlt : ic.ptr < src.length := (List.getElem?_eq_some.mp h).1
  have hdrop : src.drop ic.ptr = '\'' :: src.drop (ic.ptr + 1) := by
    rw [List.drop_eq_getElem_cons hlt]
    rw [(List.getElem?_eq_some.mp h).2]
  rw [lexNum, hdrop, lexNumLoop_cons]
  simp

/-- A successful delimited scan parks the returned cursor exactly on an
occurrence of the delimiter, strictly ahead of the start. -/
theorem lexCharacterDelimited_success_at_delim (src : List Char) (ic : Cursor)
    (d : Char) (r : LexRes) (h : lexCharacterDelimited src ic d = some r)
    (hok : r.ok = true) : src[r.cur.ptr]? = some d ∧ ic.ptr < r.cur.ptr := by
  rw [lexCharacterDelimited] at h
  split at h
  · exact Option.noConfusion h
  split at h
  · cases h; exact Bool.noConfusion hok
  split at h
  · exact Option.noConfusion h
  split at h
  · cases h; exact Bool.noConfusion hok
  split at h
  · cases h; exact Bool.noConfusion hok
  · rename_i value p l hs
    cases h
    have h2 := scanDelim_stops_at_delim src d (src.drop (ic.ptr + 1)) []
      (ic.ptr + 1) ⟨ic.loc.line, ic.loc.column + 1⟩ value p l rfl hs
    obtain ⟨ha, hb⟩ := h2
    refine ⟨ha, ?_⟩
    show ic.ptr < p
    omega

/-- From any position holding a single quote, the driver loop can never
terminate successfully: the numeric scanner rejects, and the string scanner
either rejects (making the driver error out) or parks the cursor on another
quote further right. -/
theorem tokenizeLoop_doomed_at_quote (src : List Char) : ∀ (fuel : Nat)
    (cur : Cursor) (tokens : List Tok), src[cur.ptr]? = some '\'' →
    ∀ toks, tokenizeLoop src fuel cur tokens ≠ some (Except.ok toks) := by
  intro fuel
  induction fuel with
  | zero => intro cur tokens hq toks; simp [tokenizeLoop]
  | succ f ih =>
    intro cur tokens hq toks
    have hlt : cur.ptr < src.length := (List.getElem?_eq_some.mp hq).1
    have hnum := lexNum_fails_at_quote src cur hq
    cases hls : lexString src cur with
    | none =>
      simp [tokenizeLoop, hlt, hnum, hls]
    | some r2 =>
      by_cases hok : r2.ok = true
      · have hq2 := (lexCharacterDelimited_success_at_delim src cur '\'' r2 hls hok).1
        have hih := ih r2.cur (tokens ++ r2.tok.toList) hq2 toks
        simp only [tokenizeLoop, if_pos hlt, hnum, hls, hok]
        simpa using hih
      · simp [tokenizeLoop, hlt, hnum, hls, hok]

/-- Driver-loop invariant: if the accumulated tokens all have non-empty
values, so do the tokens of a successful run's result. -/
theorem tokenizeLoop_values_nonempty (src : List Char) : ∀ (fuel : Nat)
    (cur : Cursor) (tokens : List Tok) (toks : List Tok),
    tokenizeLoop src fuel cur tokens = some (Except.ok toks) →
    (∀ t ∈ tokens, t.value ≠ []) → ∀ t ∈ toks, t.value ≠ [] := by
  intro fuel
  induction fuel with
  | zero => intro cur tokens toks h hinv; simp [tokenizeLoop] at h
  | succ f ih =>
    intro cur tokens toks h hinv
    rw [tokenizeLoop] at h
    split at h
    · -- cur.ptr < src.length
      split at h
      · exact Option.noConfusion h
      · rename_i r hn
        split at h
        · -- numeric scan succeeded
          rename_i hok
          have hs := lexNum_success src cur r hn hok
          obtain ⟨t, ht, htne⟩ := hs.2
          refine ih r.cur (tokens ++ r.tok.toList) toks h ?_
          intro t' ht'
          rw [List.mem_append] at ht'
          cases ht' with
          | inl hx => exact hinv t' hx
          | inr hx =>
            rw [ht] at hx
            simp only [Option.toList_some, List.mem_singleton] at hx
            rw [hx]
            exact htne
        · rename_i hok
          split at h
          · exact Option.noConfusion h
          · rename_i r2 hls
            split at h
            · -- string scan succeeded: the rest of the run cannot succeed
              rename_i hok2
              have hq2 := (lexCharacterDelimited_success_at_delim src cur '\''
                r2 hls hok2).1
              exact absurd h (tokenizeLoop_doomed_at_quote src f r2.cur
                (tokens ++ r2.tok.toList) hq2 toks)
            · simp at h
    · -- end of input: the accumulated tokens are returned
      cases h
      exact hinv

/--
Claim C7 (status: confirmed).  Every token in the sequence returned by a
successful run of the tokenizer has a non-empty value.  (In fact a
successful numeric scan always advances and captures at least one byte,
and a successful string scan parks the cursor on the closing quote, from
which every continuation of the driver fails, so a successful run consists
of numeric tokens only.) -/
theorem c7_token_values_nonempty (src : List Char) (toks : List Tok)
    (h : tokenize src = some (Except.ok toks)) : ∀ t ∈ toks, t.value ≠ [] :=
  tokenizeLoop_values_nonempty src (src.length + 1) ⟨0, ⟨0, 0⟩⟩ [] toks h
    (by intro t ht; exact absurd ht (List.not_mem_nil t))

/--
Witness for claim C7: the theorem applied to the concrete successful run on
`12`, which produces one numeric token with the non-empty value `12`. -/
theorem c7_token_values_nonempty_witness :
    (⟨gostr "12", TokenType.numericType, ⟨0, 0⟩⟩ : Tok).value ≠ [] :=
  c7_token_values_nonempty (gostr "12")
    [⟨gostr "12", TokenType.numericType, ⟨0, 0⟩⟩] rfl
    ⟨gostr "12", TokenType.numericType, ⟨0, 0⟩⟩ (by simp)

/-! ## Claim C6: the semicolon discipline of the Parse loop -/

/-- Characterization of the semicolon-consuming worker: it never moves
backwards, stops at the first non-semicolon position, and every position it
passed over holds a semicolon token. -/
theorem skipSemisAux_spec (tokens : List Tok) : ∀ (rest : List Tok) (c : Nat),
    tokens.drop c = rest →
    c ≤ skipSemisAux rest c ∧
    expectToken tokens (skipSemisAux rest c) semicolonTok = false ∧
    (∀ j, c ≤ j → j < skipSemisAux rest c →
      expectToken tokens j semicolonTok = true) := by
  intro rest
  induction rest with
  | nil =>
    intro c hd
    refine ⟨le_refl c, ?_, ?_⟩
    · have hlen : tokens.length ≤ c := by
        by_contra hc
        have : tokens.drop c ≠ [] := by
          intro hx
          rw [List.drop_eq_nil_iff] at hx
          omega
        exact this hd
      rw [skipSemisAux, expectToken, List.getElem?_eq_none hlen]
    · intro j h1 h2
      simp [skipSemisAux] at h2
      omega
  | cons tk rest ih =>
    intro c hd
    obtain ⟨hget, hd1⟩ := drop_cons_head tokens c tk rest hd
    rw [skipSemisAux]
    by_cases he : semicolonTok.eq tk = true
    · rw [if_pos he]
      obtain ⟨ih1, ih2, ih3⟩ := ih (c + 1) hd1
      refine ⟨by omega, ih2, ?_⟩
      intro j h1 h2
      by_cases hj : j = c
      · subst hj
        rw [expectToken, hget]
        exact he
      · exact ih3 j (by omega) h2
    · rw [if_neg he]
      refine ⟨le_refl c, ?_, ?_⟩
      · rw [expectToken, hget]
        exact Bool.eq_false_iff.mpr he
      · intro j h1 h2; omega

/-- Characterization of the semicolon-consuming loop of `Parse`. -/
theorem skipSemicolons_spec (tokens : List Tok) (c : Nat) :
    c ≤ skipSemicolons tokens c ∧
    expectToken tokens (skipSemicolons tokens c) semicolonTok = false ∧
    (∀ j, c ≤ j → j < skipSemicolons tokens c →
      expectToken tokens j semicolonTok = true) :=
  skipSemisAux_spec tokens (tokens.drop c) c rfl

/--
Claim C6 (status: confirmed).  For every token sequence and every statement
parser: after each statement the loop successfully parses, it consumes all
consecutive semicolon tokens and requires at least one of them — zero
semicolons after the statement is a parse error (the Go `Missing semi-colon
between statements`), at least one semicolon makes the loop continue just
past the whole run, a trailing run of semicolons after the last statement
is accepted, and reaching the end of the token sequence terminates
successfully with the accumulated statements. -/
theorem c6_parse_loop_semicolon_discipline
    (ps : List Tok → Nat → Option (Statement × Nat)) (tokens : List Tok)
    (cursor : Nat) (acc : List Statement) (f : Nat) (stmt : Statement) (nc : Nat)
    (hidx : cursor < tokens.length)
    (hps : ps tokens cursor = some (stmt, nc)) :
    (∀ (c : Nat) (a : List Statement), tokens.length ≤ c →
       parseLoop ps (f + 1) tokens c a = some (Except.ok a)) ∧
    nc ≤ skipSemicolons tokens nc ∧
    expectToken tokens (skipSemicolons tokens nc) semicolonTok = false ∧
    (∀ j, nc ≤ j → j < skipSemicolons tokens nc →
       expectToken tokens j semicolonTok = true) ∧
    (skipSemicolons tokens nc = nc →
       parseLoop ps (f + 1) tokens cursor acc =
         some (Except.error ParseErr.missingSemicolon)) ∧
    (nc < skipSemicolons tokens nc →
       parseLoop ps (f + 1) tokens cursor acc =
         parseLoop ps f tokens (skipSemicolons tokens nc) (acc ++ [stmt])) ∧
    (nc < skipSemicolons tokens nc → tokens.length ≤ skipSemicolons tokens nc →
       parseLoop ps (f + 2) tokens cursor acc =
         some (Except.ok (acc ++ [stmt]))) := by
  obtain ⟨hle, hstop, hrun⟩ := skipSemicolons_spec tokens nc
  have hend : ∀ (g c : Nat) (a : List Statement), tokens.length ≤ c →
      parseLoop ps (g + 1) tokens c a = some (Except.ok a) := by
    intro g c a hc
    rw [parseLoop, if_neg (by omega)]
  have hstep : ∀ g : Nat, nc < skipSemicolons tokens nc →
      parseLoop ps (g + 1) tokens cursor acc =
        parseLoop ps g tokens (skipSemicolons tokens nc) (acc ++ [stmt]) := by
    intro g hlt
    rw [parseLoop, if_pos hidx, hps]
    simp only []
    rw [if_neg (by omega)]
  refine ⟨hend f, hle, hstop, hrun, ?_, hstep f, ?_⟩
  · intro heq
    rw [parseLoop, if_pos hidx, hps]
    simp only []
    rw [if_pos heq]
  · intro hlt hlen
    rw [hstep (f + 1) hlt]
    exact hend f (skipSemicolons tokens nc) (acc ++ [stmt]) hlen

/--
Witness for claim C6: a concrete statement parser that consumes one token,
run on the token sequence `1 ;` — the parsed statement is followed by one
semicolon and the trailing run reaches the end, so the loop succeeds with
exactly that statement. -/
theorem c6_parse_loop_semicolon_discipline_witness :
    parseLoop (fun _ _ => some (⟨none, none, none, ASTType.SelectType⟩, 1)) 3
      [⟨gostr "1", TokenType.numericType, ⟨0, 0⟩⟩, semicolonTok] 0 [] =
      some (Except.ok [⟨none, none, none, ASTType.SelectType⟩]) := by
  have h := c6_parse_loop_semicolon_discipline
    (fun _ _ => some (⟨none, none, none, ASTType.SelectType⟩, 1))
    [⟨gostr "1", TokenType.numericType, ⟨0, 0⟩⟩, semicolonTok] 0 [] 1
    ⟨none, none, none, ASTType.SelectType⟩ 1 (by decide) rfl
  exact h.2.2.2.2.2.2 (by decide) (by decide)

/-! ## Claim C4: the longest-match engine -/

/-- Length of a candidate within the input. -/
theorem cand_length (rest0 : List Char) (j : Nat) (hj : j ≤ rest0.length) :
    (cand rest0 j).length = j := by
  simp [cand, List.length_take]
  omega

/-- A shorter candidate is a prefix-take of a longer one. -/
theorem cand_take (rest0 : List Char) (i j : Nat) (hij : i ≤ j) :
    (cand rest0 j).take i = cand rest0 i := by
  simp [cand, ← List.map_take, List.take_take, Nat.min_eq_left hij]

/-- Extending the candidate by the next input byte. -/
theorem cand_succ (rest0 : List Char) (k : Nat) (c : Char) (rest' : List Char)
    (hd : rest0.drop k = c :: rest') :
    cand rest0 (k + 1) = cand rest0 k ++ [goToLower c] := by
  rw [cand, List.take_add, hd]
  simp [cand]

/-- A string equal to the candidate of its own length is fixed by `take`. -/
theorem cand_self (rest0 : List Char) (j : Nat) (o : List Char)
    (hj : j ≤ rest0.length) (ho : o = cand rest0 j) : o.take j = o := by
  rw [ho, List.take_of_length_le]
  rw [cand_length rest0 j hj]

/-- A duplicate-free list of naturals below `n`, of length `n`, contains
every natural below `n`. -/
theorem mem_of_nodup_bounded_full (skip : List Nat) (n : Nat)
    (hnd : skip.Nodup) (hb : ∀ x ∈ skip, x < n) (hl : skip.length = n) :
    ∀ idx, idx < n → idx ∈ skip := by
  intro idx hidx
  have hsub : skip.toFinset ⊆ Finset.range n := by
    intro x hx
    rw [List.mem_toFinset] at hx
    exact Finset.mem_range.mpr (hb x hx)
  have hcard : (Finset.range n).card ≤ skip.toFinset.card := by
    rw [List.toFinset_card_of_nodup hnd, hl, Finset.card_range]
  have heq := Finset.eq_of_subset_of_card_le hsub hcard
  have : idx ∈ skip.toFinset := by
    rw [heq]
    exact Finset.mem_range.mpr hidx
  rwa [List.mem_toFinset] at this

/-- Unfolding lemma for one step of the option pass of `longestMatch`. -/
theorem lmInner_cons (value : List Char) (k : Nat) (o : List Char)
    (os : List (List Char)) (i : Nat) (skip : List Nat) (m : List Char) :
    lmInner value k (o :: os) i skip m =
      (if i ∈ skip then lmInner value k os (i + 1) skip m
       else if o = value then
         lmInner value k os (i + 1) (skip ++ [i])
           (if m.length < o.length then o else m)
       else if o.length < k then none
       else if decide (o.length < value.length) || !(decide (o.take k = value)) then
         lmInner value k os (i + 1) (skip ++ [i]) m
       else lmInner value k os (i + 1) skip m) := rfl

/-- Invariant transfer across one full option pass of `longestMatch`: the
pass completes without panicking (every surviving entry is longer than the
previous candidate), entries on the new skip list match no later candidate,
surviving entries are strict extensions of the current candidate, and the
best match is sound and maximal among entries matching candidates up to the
current length. -/
theorem lmInner_spec (options : List (List Char)) (rest0 : List Char) (k : Nat)
    (hk1 : k + 1 ≤ rest0.length) :
    ∀ (os : List (List Char)) (i : Nat) (skip : List Nat) (m : List Char),
    options.drop i = os →
    (∀ (idx : Nat) (o : List Char), options[idx]? = some o → i ≤ idx →
      (idx ∈ skip → NoCand rest0 o k) ∧ (idx ∉ skip → k < o.length)) →
    (∀ (idx : Nat) (o : List Char), options[idx]? = some o → idx < i →
      (idx ∈ skip → NoCand rest0 o (k + 1)) ∧ (idx ∉ skip → k + 1 < o.length)) →
    (m = [] ∨ m ∈ options ∧ Matched rest0 m (k + 1)) →
    (∀ (idx : Nat) (o : List Char), options[idx]? = some o →
      ((idx < i ∧ Matched rest0 o (k + 1)) ∨ (i ≤ idx ∧ Matched rest0 o k)) →
      o.length ≤ m.length) →
    skip.Nodup → (∀ x ∈ skip, x < options.length) →
    ∃ skip' m',
      lmInner (cand rest0 (k + 1)) (k + 1) os i skip m = some (skip', m') ∧
      (∀ x ∈ skip, x ∈ skip') ∧ skip'.Nodup ∧
      (∀ x ∈ skip', x < options.length) ∧
      (∀ (idx : Nat) (o : List Char), options[idx]? = some o →
        (idx ∈ skip' → NoCand rest0 o (k + 1)) ∧ (idx ∉ skip' → k + 1 < o.length)) ∧
      (m' = [] ∨ m' ∈ options ∧ Matched rest0 m' (k + 1)) ∧
      (∀ (idx : Nat) (o : List Char), options[idx]? = some o → Matched rest0 o (k + 1) →
        o.length ≤ m'.length) ∧
      m.length ≤ m'.length := by
  have hlc : (cand rest0 (k + 1)).length = k + 1 := cand_length rest0 (k + 1) hk1
  intro os
  induction os with
  | nil =>
    intro i skip m hdrop hA hB hC hD hnd hbd
    have hlen : options.length ≤ i := List.drop_eq_nil_iff.mp hdrop
    refine ⟨skip, m, rfl, fun x hx => hx, hnd, hbd, ?_, hC, ?_, le_refl _⟩
    · intro idx o ho
      have hidx : idx < options.length := (List.getElem?_eq_some.mp ho).1
      exact hB idx o ho (by omega)
    · intro idx o ho hmo
      have hidx : idx < options.length := (List.getElem?_eq_some.mp ho).1
      exact hD idx o ho (Or.inl ⟨by omega, hmo⟩)
  | cons o os' ih =>
    intro i skip m hdrop hA hB hC hD hnd hbd
    obtain ⟨hgi, hdrop1⟩ := drop_cons_head options i o os' hdrop
    have hile : i < options.length := (List.getElem?_eq_some.mp hgi).1
    have homem : o ∈ options := List.getElem?_mem hgi
    rw [lmInner_cons]
    by_cases hsk : i ∈ skip
    · -- index i is already on the skip list: this round ignores it
      rw [if_pos hsk]
      have hno := (hA i o hgi (le_refl i)).1 hsk
      refine ih (i + 1) skip m hdrop1 ?_ ?_ hC ?_ hnd hbd
      · intro idx o' ho' hge
        exact hA idx o' ho' (by omega)
      · intro idx o' ho' hlt
        by_cases hidx : idx = i
        · subst hidx
          have ho'o : o' = o := by rw [hgi] at ho'; exact (Option.some.inj ho').symm
          subst ho'o
          exact ⟨fun _ j hj hjl => hno j (by omega) hjl,
                 fun hn => absurd hsk hn⟩
        · exact hB idx o' ho' (by omega)
      · intro idx o' ho' hcase
        cases hcase with
        | inl h1 =>
          by_cases hidx : idx = i
          · subst hidx
            have ho'o : o' = o := by rw [hgi] at ho'; exact (Option.some.inj ho').symm
            subst ho'o
            obtain ⟨j, hj1, hj2, hje⟩ := h1.2
            by_cases hjk : j ≤ k
            · exact hD idx o' ho' (Or.inr ⟨le_refl _, j, hj1, hjk, hje⟩)
            · exact absurd hje (hno j (by omega) (by omega))
          · exact hD idx o' ho' (Or.inl ⟨by omega, h1.2⟩)
        | inr h2 => exact hD idx o' ho' (Or.inr ⟨by omega, h2.2⟩)
    · rw [if_neg hsk]
      have holen : k < o.length := (hA i o hgi (le_refl i)).2 hsk
      have hmemapp : ∀ idx, idx ≠ i → (idx ∈ skip ++ [i] ↔ idx ∈ skip) := by
        intro idx hne
        simp [List.mem_append, hne]
      have hnd' : (skip ++ [i]).Nodup := by
        simp [List.nodup_append, hnd, hsk]
      have hbd' : ∀ x ∈ skip ++ [i], x < options.length := by
        intro x hx
        rw [List.mem_append, List.mem_singleton] at hx
        cases hx with
        | inl h => exact hbd x h
        | inr h => exact h ▸ hile
      by_cases hmatch : o = cand rest0 (k + 1)
      · -- exact match of the current candidate: record and skip
        rw [if_pos hmatch]
        have hm'ge : m.length ≤ (if m.length < o.length then o else m).length := by
          split <;> omega
        obtain ⟨skip', m', h1, h2, h3, h4, h5, h6, h7, h8⟩ :=
          ih (i + 1) (skip ++ [i]) (if m.length < o.length then o else m) hdrop1
            (by
              intro idx o' ho' hge
              have hne : idx ≠ i := by omega
              constructor
              · intro hin
                exact (hA idx o' ho' (by omega)).1 ((hmemapp idx hne).mp hin)
              · intro hnin
                exact (hA idx o' ho' (by omega)).2
                  (fun hx => hnin ((hmemapp idx hne).mpr hx)))
            (by
              intro idx o' ho' hlt
              by_cases hidx : idx = i
              · subst hidx
                have ho'o : o' = o := by
                  rw [hgi] at ho'; exact (Option.some.inj ho').symm
                subst ho'o
                refine ⟨fun _ j hj hjl heq => ?_,
                        fun hn => absurd (by simp) hn⟩
                have hx1 : o'.length = k + 1 := hmatch ▸ hlc
                have hx2 : o'.length = j := heq ▸ cand_length rest0 j hjl
                omega
              · constructor
                · intro hin
                  exact (hB idx o' ho' (by omega)).1 ((hmemapp idx hidx).mp hin)
                · intro hnin
                  exact (hB idx o' ho' (by omega)).2
                    (fun hx => hnin ((hmemapp idx hidx).mpr hx)))
            (by
              by_cases hml : m.length < o.length
              · rw [if_pos hml]
                exact Or.inr ⟨homem, k + 1, by omega, le_refl _, hmatch⟩
              · rw [if_neg hml]
                exact hC)
            (by
              intro idx o' ho' hcase
              cases hcase with
              | inl h1 =>
                by_cases hidx : idx = i
                · subst hidx
                  have ho'o : o' = o := by
                    rw [hgi] at ho'; exact (Option.some.inj ho').symm
                  subst ho'o
                  by_cases hml : m.length < o'.length
                  · rw [if_pos hml]
                  · rw [if_neg hml]
                    omega
                · have hle1 := hD idx o' ho' (Or.inl ⟨by omega, h1.2⟩)
                  omega
              | inr h2 =>
                have hle1 := hD idx o' ho' (Or.inr ⟨by omega, h2.2⟩)
                omega)
            hnd' hbd'
        exact ⟨skip', m', h1, fun x hx => h2 x (List.mem_append_left _ hx),
               h3, h4, h5, h6, h7, by omega⟩
      · -- no exact match
        rw [if_neg hmatch, if_neg (by omega)]
        by_cases hshare : o.take (k + 1) = cand rest0 (k + 1)
        · -- still a viable strict extension: keep the entry alive
          have hcond : (decide (o.length < (cand rest0 (k + 1)).length) ||
              !(decide (o.take (k + 1) = cand rest0 (k + 1)))) = false := by
            simp [hshare, hlc]
            omega
          rw [hcond]
          simp only [Bool.false_eq_true, if_false]
          have hogt : k + 1 < o.length := by
            rcases Nat.lt_or_ge (k + 1) o.length with h | h
            · exact h
            · exfalso
              have hoeq : o.take (k + 1) = o := List.take_of_length_le h
              exact hmatch (hoeq ▸ hshare)
          refine ih (i + 1) skip m hdrop1 ?_ ?_ hC ?_ hnd hbd
          · intro idx o' ho' hge
            exact hA idx o' ho' (by omega)
          · intro idx o' ho' hlt
            by_cases hidx : idx = i
            · subst hidx
              have ho'o : o' = o := by rw [hgi] at ho'; exact (Option.some.inj ho').symm
              subst ho'o
              exact ⟨fun hin => absurd hin hsk, fun _ => hogt⟩
            · exact hB idx o' ho' (by omega)
          · intro idx o' ho' hcase
            cases hcase with
            | inl h1 =>
              by_cases hidx : idx = i
              · subst hidx
                have ho'o : o' = o := by rw [hgi] at ho'; exact (Option.some.inj ho').symm
                subst ho'o
                obtain ⟨j, hj1, hj2, hje⟩ := h1.2
                by_cases hjk : j ≤ k
                · exact hD idx o' ho' (Or.inr ⟨le_refl _, j, hj1, hjk, hje⟩)
                · have : j = k + 1 := by omega
                  subst this
                  exact absurd hje hmatch
              · exact hD idx o' ho' (Or.inl ⟨by omega, h1.2⟩)
            | inr h2 => exact hD idx o' ho' (Or.inr ⟨by omega, h2.2⟩)
        · -- prefix mismatch: the entry is eliminated for good
          have hcond : (decide (o.length < (cand rest0 (k + 1)).length) ||
              !(decide (o.take (k + 1) = cand rest0 (k + 1)))) = true := by
            simp [hshare]
          rw [hcond]
          simp only [if_true]
          have hnofut : NoCand rest0 o (k + 1) := by
            intro j hj hjl heq
            have : o.take (k + 1) = cand rest0 (k + 1) := by
              rw [heq, cand_take rest0 (k + 1) j (by omega)]
            exact hshare this
          obtain ⟨skip', m', h1, h2, h3, h4, h5, h6, h7, h8⟩ :=
            ih (i + 1) (skip ++ [i]) m hdrop1
              (by
                intro idx o' ho' hge
                have hne : idx ≠ i := by omega
                constructor
                · intro hin
                  exact (hA idx o' ho' (by omega)).1 ((hmemapp idx hne).mp hin)
                · intro hnin
                  exact (hA idx o' ho' (by omega)).2
                    (fun hx => hnin ((hmemapp idx hne).mpr hx)))
              (by
                intro idx o' ho' hlt
                by_cases hidx : idx = i
                · subst hidx
                  have ho'o : o' = o := by
                    rw [hgi] at ho'; exact (Option.some.inj ho').symm
                  subst ho'o
                  exact ⟨fun _ => hnofut, fun hn => absurd (by simp) hn⟩
                · constructor
                  · intro hin
                    exact (hB idx o' ho' (by omega)).1 ((hmemapp idx hidx).mp hin)
                  · intro hnin
                    exact (hB idx o' ho' (by omega)).2
                      (fun hx => hnin ((hmemapp idx hidx).mpr hx)))
              hC
              (by
                intro idx o' ho' hcase
                cases hcase with
                | inl h1 =>
                  by_cases hidx : idx = i
                  · subst hidx
                    have ho'o : o' = o := by
                      rw [hgi] at ho'; exact (Option.some.inj ho').symm
                    subst ho'o
                    obtain ⟨j, hj1, hj2, hje⟩ := h1.2
                    by_cases hjk : j ≤ k
                    · exact hD idx o' ho' (Or.inr ⟨le_refl _, j, hj1, hjk, hje⟩)
                    · have hj3 : j = k + 1 := by omega
                      rw [hj3] at hje
                      exact absurd hje hmatch
                  · exact hD idx o' ho' (Or.inl ⟨by omega, h1.2⟩)
                | inr h2 => exact hD idx o' ho' (Or.inr ⟨by omega, h2.2⟩))
              hnd' hbd'
          exact ⟨skip', m', h1, fun x hx => h2 x (List.mem_append_left _ hx),
                 h3, h4, h5, h6, h7, h8⟩

/-- Unfolding lemma for one iteration of the outer `longestMatch` loop. -/
theorem lmLoop_cons (options : List (List Char)) (c : Char)
    (rest value : List Char) (k : Nat) (skip : List Nat) (m : List Char) :
    lmLoop options (c :: rest) value k skip m =
      (match lmInner (value ++ [goToLower c]) (k + 1) options 0 skip m with
       | none => none
       | some (skip', m') =>
         if skip'.length = options.length then some m'
         else lmLoop options rest (value ++ [goToLower c]) (k + 1) skip' m') := rfl

/-- Invariant transfer across the outer `longestMatch` loop: starting from a
consistent state, the loop returns (no panic) with either the empty string
and no entry matching any candidate, or an entry of the vocabulary equal to
some candidate and at least as long as every entry equal to any candidate. -/
theorem lmLoop_spec (options : List (List Char)) (rest0 : List Char)
    (hne : ∀ o ∈ options, o ≠ []) :
    ∀ (rest value : List Char) (k : Nat) (skip : List Nat) (m : List Char),
    rest0.drop k = rest → value = cand rest0 k → k ≤ rest0.length →
    (∀ (idx : Nat) (o : List Char), options[idx]? = some o →
      (idx ∈ skip → NoCand rest0 o k) ∧ (idx ∉ skip → k < o.length)) →
    (m = [] ∨ m ∈ options ∧ Matched rest0 m k) →
    (∀ (idx : Nat) (o : List Char), options[idx]? = some o →
      Matched rest0 o k → o.length ≤ m.length) →
    skip.Nodup → (∀ x ∈ skip, x < options.length) →
    ∃ m', lmLoop options rest value k skip m = some m' ∧
      ((m' = [] ∧ ∀ o ∈ options, NoCand rest0 o 0) ∨
       (m' ∈ options ∧ Matched rest0 m' rest0.length ∧
        ∀ o ∈ options, Matched rest0 o rest0.length → o.length ≤ m'.length)) := by
  intro rest
  induction rest with
  | nil =>
    intro value k skip m hdrop hvalue hk hskip hC hD hnd hbd
    have hkl : rest0.length ≤ k := List.drop_eq_nil_iff.mp hdrop
    have hke : k = rest0.length := by omega
    subst hke
    refine ⟨m, rfl, ?_⟩
    cases hC with
    | inl hm =>
      subst hm
      refine Or.inl ⟨rfl, ?_⟩
      intro o homem j hj1 hjl heq
      obtain ⟨idx, hgidx⟩ := List.mem_iff_getElem?.mp homem
      have hle := hD idx o hgidx ⟨j, hj1, hjl, heq⟩
      have hlen0 : o.length = 0 := by simpa using hle
      exact hne o homem (List.eq_nil_of_length_eq_zero hlen0)
    | inr hm =>
      refine Or.inr ⟨hm.1, hm.2, ?_⟩
      intro o homem hmo
      obtain ⟨idx, hgidx⟩ := List.mem_iff_getElem?.mp homem
      exact hD idx o hgidx hmo
  | cons c rest' ih =>
    intro value k skip m hdrop hvalue hk hskip hC hD hnd hbd
    have hk1 : k + 1 ≤ rest0.length := by
      have := List.length_drop k rest0
      rw [hdrop] at this
      simp at this
      omega
    have hdrop1 : rest0.drop (k + 1) = rest' :=
      (drop_cons_head rest0 k c rest' hdrop).2
    have hval' : value ++ [goToLower c] = cand rest0 (k + 1) := by
      rw [hvalue, ← cand_succ rest0 k c rest' hdrop]
    obtain ⟨skip', m', h1, h2, h3, h4, h5, h6, h7, h8⟩ :=
      lmInner_spec options rest0 k hk1 options 0 skip m rfl
        (by intro idx o ho _; exact hskip idx o ho)
        (by intro idx o ho hlt; omega)
        (by
          cases hC with
          | inl hm => exact Or.inl hm
          | inr hm =>
            obtain ⟨j, hj1, hj2, hje⟩ := hm.2
            exact Or.inr ⟨hm.1, j, hj1, by omega, hje⟩)
        (by
          intro idx o ho hcase
          cases hcase with
          | inl h => omega
          | inr h =>
            exact hD idx o ho h.2)
        hnd hbd
    have hstep : lmLoop options (c :: rest') value k skip m =
        (if skip'.length = options.length then some m'
         else lmLoop options rest' (cand rest0 (k + 1)) (k + 1) skip' m') := by
      rw [lmLoop_cons, hval', h1]
    rw [hstep]
    by_cases hfull : skip'.length = options.length
    · rw [if_pos hfull]
      have hall : ∀ idx, idx < options.length → idx ∈ skip' :=
        mem_of_nodup_bounded_full skip' options.length h3 h4 hfull
      refine ⟨m', rfl, ?_⟩
      cases h6 with
      | inl hm =>
        subst hm
        refine Or.inl ⟨rfl, ?_⟩
        intro o homem j hj1 hjl heq
        obtain ⟨idx, hgidx⟩ := List.mem_iff_getElem?.mp homem
        by_cases hjk : j ≤ k + 1
        · have hle := h7 idx o hgidx ⟨j, hj1, hjk, heq⟩
          have hlen0 : o.length = 0 := by simpa using hle
          exact hne o homem (List.eq_nil_of_length_eq_zero hlen0)
        · have hidx : idx < options.length := (List.getElem?_eq_some.mp hgidx).1
          exact (h5 idx o hgidx).1 (hall idx hidx) j (by omega) hjl heq
      | inr hm =>
        obtain ⟨hmem, j0, hj01, hj02, hje0⟩ := hm
        refine Or.inr ⟨hmem, ⟨j0, hj01, by omega, hje0⟩, ?_⟩
        intro o homem hmo
        obtain ⟨j, hj1, hjl, hje⟩ := hmo
        obtain ⟨idx, hgidx⟩ := List.mem_iff_getElem?.mp homem
        by_cases hjk : j ≤ k + 1
        · exact h7 idx o hgidx ⟨j, hj1, hjk, hje⟩
        · have hidx : idx < options.length := (List.getElem?_eq_some.mp hgidx).1
          exact absurd hje ((h5 idx o hgidx).1 (hall idx hidx) j (by omega) hjl)
    · rw [if_neg hfull]
      exact ih (cand rest0 (k + 1)) (k + 1) skip' m' hdrop1 rfl hk1 h5 h6 h7 h3 h4

/--
Claim C4 as amended: for every source text, starting cursor, and vocabulary
list all of whose entries are non-empty, `longestMatch` returns (without
panicking) the longest vocabulary entry that exactly equals the lower-cased
candidate consumed at some point — never a shorter matching entry and never
a non-matching entry — and returns the empty string exactly when no entry
matches any candidate.  (`NoCand rest o 0` says `o` equals no candidate of
the input at all; `Matched rest o rest.length` says it equals some
candidate.) -/
theorem c4_longest_match_maximal (src : List Char) (ic : Cursor)
    (options : List (List Char)) (hne : ∀ o ∈ options, o ≠ []) :
    ∃ m, longestMatch src ic options = some m ∧
      ((m = [] ∧ ∀ o ∈ options, NoCand (src.drop ic.ptr) o 0) ∨
       (m ∈ options ∧ Matched (src.drop ic.ptr) m (src.drop ic.ptr).length ∧
        ∀ o ∈ options, Matched (src.drop ic.ptr) o (src.drop ic.ptr).length →
          o.length ≤ m.length)) := by
  rw [longestMatch]
  exact lmLoop_spec options (src.drop ic.ptr) hne (src.drop ic.ptr) [] 0 [] []
    (List.drop_zero _) rfl (Nat.zero_le _)
    (by
      intro idx o ho
      refine ⟨fun hin => absurd hin (List.not_mem_nil idx), fun _ => ?_⟩
      have : o ≠ [] := hne o (List.getElem?_mem ho)
      have := List.length_pos.mpr this
      omega)
    (Or.inl rfl)
    (by
      intro idx o ho hmo
      obtain ⟨j, hj1, hj2, _⟩ := hmo
      omega)
    List.nodup_nil
    (by intro x hx; exact absurd hx (List.not_mem_nil x))

/--
Claim C4, counterexample.  The claim quantifies over every vocabulary list,
but for a vocabulary containing an empty entry the Go code panics instead of
returning: on source `a` with vocabulary `[""]` the slice expression
`option[:cur.ptr-ic.ptr]` is out of range (modelled as `none`), so
`longestMatch` does not return the empty string that "no entry ever
matched" would require. -/
theorem c4_empty_vocab_entry_panics :
    longestMatch (gostr "a") ⟨0, ⟨0, 0⟩⟩ [[]] = none ∧
    (none : Option (List Char)) ≠ some [] :=
  ⟨rfl, by decide⟩

/--
Witness for claim C4: the amended theorem applied to the overlapping
vocabulary `in`/`into` on the source `into`, discharging the nonemptiness
hypothesis concretely; the engine returns (does not panic). -/
theorem c4_longest_match_maximal_witness :
    longestMatch (gostr "into") ⟨0, ⟨0, 0⟩⟩ [gostr "in", gostr "into"] ≠ none := by
  obtain ⟨m, hm, -⟩ := c4_longest_match_maximal (gostr "into") ⟨0, ⟨0, 0⟩⟩
    [gostr "in", gostr "into"] (by decide)
  rw [hm]
  simp

end Sgsql
